import Mathlib

/-!
# rpi-battery-monitor

A shallow embedding of the two C sources of the repository:

* `avr/monitor.c`: the transmitter. It samples the ADC, ORs a signature into the
  reading and sends it on one pin of port B in Manchester code.
* `src/cbits.c`: the host side access to the GPIO register window
  (`gpio_init`, `gpio_read`).

Machine integers are natural numbers with explicit reduction modulo `2 ^ w`.
The AVR has 8-bit I/O registers, a 16-bit `int` and a 16-bit `uint16_t`; the host
has 32-bit `int` and `unsigned`.
-/

namespace Monitor

/-! ## avr/monitor.c -/

/-- The constant `#define MANCHESTER_DELAY 500` (microseconds). -/
def MANCHESTER_DELAY : Nat := 500

/-- The macro `#define OUT (1 << DDB1)`. The bit number `DDB1` is declared by
`<avr/io.h>`, which is not part of the repository, so it is a parameter. -/
def OUT (ddb1 : Nat) : Nat := 1 <<< ddb1

/-- What the transmitter does that is visible on port B, in program order:
a store to the `PORTB` register (with the stored value) or a busy-wait. -/
inductive Event where
  | portb (v : Nat)
  | delay_us (n : Nat)
  | delay_ms (n : Nat)
  deriving DecidableEq

/-- The part of the microcontroller the program touches after the ADC set-up:
the data direction register, the port register, the history of port events
(oldest first), and the history of the arguments `manchester_out` was called
with (oldest first; a ghost field, the C program keeps no such list). -/
structure Avr where
  ddrb : Nat
  portb : Nat
  trace : List Event
  calls : List Nat
  deriving DecidableEq

/-- The store `PORTB = v` into the 8-bit register. -/
def write_portb (v : Nat) (s : Avr) : Avr :=
  { s with portb := v % 256, trace := s.trace ++ [Event.portb (v % 256)] }

/-- The busy-wait `_delay_us(n)`. -/
def _delay_us (n : Nat) (s : Avr) : Avr :=
  { s with trace := s.trace ++ [Event.delay_us n] }

/-- The busy-wait `_delay_ms(n)`. -/
def _delay_ms (n : Nat) (s : Avr) : Avr :=
  { s with trace := s.trace ++ [Event.delay_ms n] }

/-- The function `out_high`: `PORTB |= OUT;`. -/
def out_high (ddb1 : Nat) (s : Avr) : Avr :=
  write_portb (s.portb ||| OUT ddb1) s

/-- The function `out_low`: `PORTB &= ~OUT;`. `OUT` is a 16-bit `int`, so `~OUT`
flips its 16 bits; the result of the `&` is stored into the 8-bit register. -/
def out_low (ddb1 : Nat) (s : Avr) : Avr :=
  write_portb (s.portb &&& (0xFFFF ^^^ OUT ddb1)) s

/-- The function `manchester_out(uint8_t bit)`. Its first line here records the
argument in the ghost field `calls`; the rest is the C body. -/
def manchester_out (ddb1 : Nat) (bit : Nat) (s : Avr) : Avr :=
  let s := { s with calls := s.calls ++ [bit] }
  if bit ≠ 0 then
    let s := out_high ddb1 s
    let s := _delay_us MANCHESTER_DELAY s
    let s := out_low ddb1 s
    _delay_us MANCHESTER_DELAY s
  else
    let s := out_low ddb1 s
    let s := _delay_us MANCHESTER_DELAY s
    let s := out_high ddb1 s
    _delay_us MANCHESTER_DELAY s

/-- Lines 50 to 54 of `main`: the 16-bit `reading` assembled from the two ADC
data registers, with the signature ORed in.
`uint16_t reading = ADCL; reading |= ((uint16_t) ADCH) << 8; reading |= 0xB400;`
`adcl` and `adch` are what the 8-bit registers `ADCL` and `ADCH` hold. -/
def main_reading (adcl adch : Nat) : Nat :=
  let reading := adcl % 256
  let reading := (reading ||| ((adch % 256) <<< 8) % 65536) % 65536
  (reading ||| 0xB400) % 65536

/-- The loop `for (uint8_t i=0; i<16; i++) { manchester_out(reading & 1); reading >>= 1; }`
of `main`, with `n` the number of iterations still to run (the body does not
read `i`). The argument is converted to `uint8_t`. -/
def main_data_loop (ddb1 : Nat) : Nat → Nat → Avr → Avr
  | 0, _, s => s
  | n + 1, reading, s =>
    main_data_loop ddb1 n (reading >>> 1) (manchester_out ddb1 ((reading &&& 1) % 256) s)

/-- Lines 56 to 61 of `main`: the preamble `manchester_out(1);` and the 16 data
symbols of `reading`. -/
def main_transmit (ddb1 : Nat) (reading : Nat) (s : Avr) : Avr :=
  main_data_loop ddb1 16 reading (manchester_out ddb1 1 s)

/-- One pass through the body of `for (;;)` in `main`, from the read of the ADC
result (line 50) to the end of the body (line 66). The conversion that precedes
it (lines 46 and 47) touches only `ADCSRA`; its outcome is the pair of values the
program then reads from `ADCL` and `ADCH`. -/
def main_cycle (ddb1 : Nat) (adcl adch : Nat) (s : Avr) : Avr :=
  let reading := main_reading adcl adch
  let s := main_transmit ddb1 reading s
  let s := out_low ddb1 s
  _delay_ms 100 s

/-- The start of `main` up to the loop, as far as port B goes:
`DDRB = OUT; out_low();`. -/
def main_init (ddb1 : Nat) (s : Avr) : Avr :=
  let s := { s with ddrb := OUT ddb1 % 256 }
  out_low ddb1 s

/-- The function `main` run for as many passes of its endless loop as there are
ADC results in `adc` (each a pair `(ADCL, ADCH)`). -/
def main (ddb1 : Nat) (adc : List (Nat × Nat)) (s : Avr) : Avr :=
  adc.foldl (fun s r => main_cycle ddb1 r.1 r.2 s) (main_init ddb1 s)

/-! ### Reading the trace -/

/-- The level of the output pin when `PORTB` holds `v`: bit `DDB1` of `v`. -/
def pin_level (ddb1 : Nat) (v : Nat) : Bool := v &&& OUT ddb1 != 0

/-- The levels the pin is driven to, in order, one for each store to `PORTB`. -/
def levels (ddb1 : Nat) : List Event → List Bool
  | [] => []
  | Event.portb v :: t => pin_level ddb1 v :: levels ddb1 t
  | _ :: t => levels ddb1 t

/-- The length of a busy-wait in microseconds; a store takes no nominal time. -/
def duration_us : Event → Nat
  | Event.portb _ => 0
  | Event.delay_us n => n
  | Event.delay_ms n => 1000 * n

/-- The line as a receiver sees it: for each event either the level now driven
(`Sum.inl`) or the time in microseconds it is held (`Sum.inr`). -/
def signal (ddb1 : Nat) : List Event → List (Bool ⊕ Nat)
  | [] => []
  | Event.portb v :: t => Sum.inl (pin_level ddb1 v) :: signal ddb1 t
  | e :: t => Sum.inr (duration_us e) :: signal ddb1 t

/-- The lengths of the busy-waits, in microseconds and in order; stores are
left out. -/
def delays : List Event → List Nat
  | [] => []
  | Event.portb _ :: t => delays t
  | e :: t => duration_us e :: delays t

/-- The events a piece of code appended to the trace, given the trace before it
ran and the trace after. -/
def emitted (before after : List Event) : List Event :=
  after.drop before.length

/-- The two half-symbol levels of `bit` in Manchester code, first half first. -/
def half_symbols (bit : Nat) : List Bool := [bit != 0, bit == 0]

/-- The signal of one Manchester symbol: each half-symbol level followed by the
half-bit delay. -/
def symbol (bit : Nat) : List (Bool ⊕ Nat) :=
  [Sum.inl (bit != 0), Sum.inr MANCHESTER_DELAY, Sum.inl (bit == 0), Sum.inr MANCHESTER_DELAY]

/-- Bit `i` of `f`, as `0` or `1`. -/
def bit_of (f i : Nat) : Nat := (f >>> i) &&& 1

/-- The 17 bits of one transmission of the frame `f`: the preamble `1`, then
bits 0 to 15 of `f`. -/
def frame_bits (f : Nat) : List Nat :=
  1 :: (List.range 16).map (bit_of f)

/-- No three consecutive entries of the list are equal. -/
def no_three_equal : List Bool → Bool
  | a :: b :: c :: t => !(a == b && b == c) && no_three_equal (b :: c :: t)
  | _ => true

/-! ### The receiver's view of one frame -/

/-- The inverse symbol mapping of the receiver, as the specification words it
(section 4.5; the sources hold no receiver, so the `spec_` definitions follow the
specification, not code). High then low is `1`, low then high is `0`, any other
pair of half-symbols is no symbol. -/
def spec_decode_symbol : Bool → Bool → Option Nat
  | true, false => some 1
  | false, true => some 0
  | _, _ => none

/-- Specification side: the half-symbol levels decoded pair by pair; `none` when
a pair is no symbol or a half-symbol is left over. -/
def spec_decode_levels : List Bool → Option (List Nat)
  | [] => some []
  | [_] => none
  | a :: b :: t =>
    match spec_decode_symbol a b, spec_decode_levels t with
    | some x, some r => some (x :: r)
    | _, _ => none

/-- Specification side: the value whose bits are the given list, least
significant bit first. -/
def spec_assemble : List Nat → Nat
  | [] => 0
  | b :: t => b + 2 * spec_assemble t

/-- Specification side: the sample carried by the half-symbol levels of one
transmission. The first symbol must be the preamble `1` and 16 data symbols must
follow; the sample is the 16-bit frame with the signature bits `0xB400` cleared. -/
def spec_decode_sample (lv : List Bool) : Option Nat :=
  match spec_decode_levels lv with
  | some (1 :: bits) =>
    if bits.length = 16 then some (spec_assemble bits &&& (0xFFFF ^^^ 0xB400)) else none
  | _ => none

/-! ## src/cbits.c -/

/-- The GPIO register window behind the pointer `gpio`: the 32-bit word at each
word offset. -/
abbrev Window := Nat → Nat

/-- The store `*(gpio + i) = v` into a 32-bit register. -/
def store (gpio : Window) (i v : Nat) : Window :=
  fun j => if j = i then v % 2 ^ 32 else gpio j

/-- The constant `static const int pin = 4;`. -/
def pin : Nat := 4

/-- The macro `#define INP_GPIO(g) *(gpio+((g)/10)) &= ~(7<<(((g)%10)*3))`.
The `~` flips the 32 bits of an `int`. -/
def INP_GPIO (g : Nat) (gpio : Window) : Window :=
  store gpio (g / 10) (gpio (g / 10) &&& (0xFFFFFFFF ^^^ (7 <<< ((g % 10) * 3))))

/-- The macro `#define OUT_GPIO(g) *(gpio+((g)/10)) |= (1<<(((g)%10)*3))`. -/
def OUT_GPIO (g : Nat) (gpio : Window) : Window :=
  store gpio (g / 10) (gpio (g / 10) ||| (1 <<< ((g % 10) * 3)))

/-- The macro `#define GET_GPIO(g) (*(gpio+13)&(1<<g))`. -/
def GET_GPIO (g : Nat) (gpio : Window) : Nat :=
  gpio 13 &&& (1 <<< g)

/-- The function `gpio_init`. `fd` is what `open` returned and `mapped` what
`mmap` returned: `none` for `MAP_FAILED`, else the register window now behind
`gpio`. Either failure ends the process with `exit(-1)`, here `Except.error (-1)`;
on success the result is the window after `INP_GPIO(pin); OUT_GPIO(pin);`. -/
def gpio_init (fd : Int) (mapped : Option Window) : Except Int Window :=
  if fd < 0 then Except.error (-1)
  else
    match mapped with
    | none => Except.error (-1)
    | some gpio => Except.ok ( OUT_GPIO pin ( INP_GPIO pin gpio))

/-- The function `gpio_read`: `return GET_GPIO(pin) != 0;`, on the window that
`gpio_init` mapped. The result is paired with the window after the call. -/
def gpio_read (gpio : Window) : Nat × Window :=
  (if GET_GPIO pin gpio ≠ 0 then 1 else 0, gpio)

/-! ## Lemmas on the transmitter -/

theorem pin_level_eq (d v : Nat) : pin_level d v = v.testBit d := by
  unfold pin_level OUT
  rw [Nat.one_shiftLeft, Nat.and_two_pow]
  cases h : v.testBit d <;> simp

theorem pin_level_set (d v : Nat) (hd : d < 8) :
    pin_level d ((v ||| OUT d) % 256) = true := by
  rw [pin_level_eq, OUT, Nat.one_shiftLeft]
  have h : (256 : Nat) = 2 ^ 8 := by norm_num
  rw [h, Nat.testBit_mod_two_pow, Nat.testBit_or, Nat.testBit_two_pow_self]
  simp [hd]

theorem pin_level_clear (d v : Nat) :
    pin_level d ((v &&& (0xFFFF ^^^ OUT d)) % 256) = false := by
  rw [pin_level_eq, OUT, Nat.one_shiftLeft]
  have h : (256 : Nat) = 2 ^ 8 := by norm_num
  have h16 : (0xFFFF : Nat) = 2 ^ 16 - 1 := by norm_num
  rw [h, h16, Nat.testBit_mod_two_pow, Nat.testBit_and, Nat.testBit_xor,
    Nat.testBit_two_pow_sub_one, Nat.testBit_two_pow_self]
  by_cases h8 : d < 8
  · have : d < 16 := by omega
    simp [this]
  · simp [h8]

theorem signal_append (d : Nat) (a b : List Event) :
    signal d (a ++ b) = signal d a ++ signal d b := by
  induction a with
  | nil => rfl
  | cons e t ih => cases e <;> simp [signal, ih]

theorem levels_append (d : Nat) (a b : List Event) :
    levels d (a ++ b) = levels d a ++ levels d b := by
  induction a with
  | nil => rfl
  | cons e t ih => cases e <;> simp [levels, ih]

theorem delays_append (a b : List Event) :
    delays (a ++ b) = delays a ++ delays b := by
  induction a with
  | nil => rfl
  | cons e t ih => cases e <;> simp [delays, ih]

/-- What a trace reading `g` that respects concatenation makes of the emitted
events, when the old trace is a prefix of the new one. -/
theorem emitted_reading {α : Type} (g : List Event → List α)
    (hg : ∀ a b, g (a ++ b) = g a ++ g b) (t t' : List Event) (l : List α)
    (hp : t <+: t') (h : g t' = g t ++ l) : g (emitted t t') = l := by
  obtain ⟨x, rfl⟩ := hp
  unfold emitted
  rw [List.drop_left]
  rw [hg] at h
  exact List.append_cancel_left h

theorem manchester_out_signal (d bit : Nat) (s : Avr) (hd : d < 8) :
    signal d (manchester_out d bit s).trace = signal d s.trace ++ symbol bit := by
  unfold manchester_out
  by_cases hb : bit = 0 <;>
    simp [hb, out_high, out_low, write_portb, _delay_us, signal_append, signal, symbol,
      pin_level_set _ _ hd, pin_level_clear, duration_us]

theorem manchester_out_levels (d bit : Nat) (s : Avr) (hd : d < 8) :
    levels d (manchester_out d bit s).trace = levels d s.trace ++ half_symbols bit := by
  unfold manchester_out
  by_cases hb : bit = 0 <;>
    simp [hb, out_high, out_low, write_portb, _delay_us, levels_append, levels, half_symbols,
      pin_level_set _ _ hd, pin_level_clear]

theorem manchester_out_delays (d bit : Nat) (s : Avr) :
    delays (manchester_out d bit s).trace
      = delays s.trace ++ [MANCHESTER_DELAY, MANCHESTER_DELAY] := by
  unfold manchester_out
  by_cases hb : bit = 0 <;>
    simp [hb, out_high, out_low, write_portb, _delay_us, delays_append, delays, duration_us]

theorem manchester_out_calls (d bit : Nat) (s : Avr) :
    (manchester_out d bit s).calls = s.calls ++ [bit] := by
  unfold manchester_out
  by_cases hb : bit = 0 <;>
    simp [hb, out_high, out_low, write_portb, _delay_us]

theorem manchester_out_trace_grows (d bit : Nat) (s : Avr) :
    s.trace <+: (manchester_out d bit s).trace := by
  unfold manchester_out
  by_cases hb : bit = 0 <;>
    simp [hb, out_high, out_low, write_portb, _delay_us, List.append_assoc]

theorem bit_of_zero (r : Nat) : (r &&& 1) % 256 = bit_of r 0 := by
  unfold bit_of
  simp only [Nat.shiftRight_zero, Nat.and_one_is_mod]
  omega

theorem bit_of_succ (r i : Nat) : bit_of r (i + 1) = bit_of (r >>> 1) i := by
  unfold bit_of
  rw [Nat.add_comm, Nat.shiftRight_add]

theorem bit_of_le_one (r i : Nat) : bit_of r i = 0 ∨ bit_of r i = 1 := by
  unfold bit_of
  rw [Nat.and_one_is_mod]
  omega

theorem range_map_bit_of (r n : Nat) :
    (List.range (n + 1)).map (bit_of r)
      = bit_of r 0 :: (List.range n).map (bit_of (r >>> 1)) := by
  rw [List.range_succ_eq_map]
  simp only [List.map_cons, List.map_map]
  congr 1
  apply List.map_congr_left
  intro i _
  exact bit_of_succ r i

/-- The data loop is the successive call of `manchester_out` on the low `n` bits
of `reading`, least significant first. -/
theorem main_data_loop_eq_foldl (d n : Nat) : ∀ (r : Nat) (s : Avr),
    main_data_loop d n r s
      = ((List.range n).map (bit_of r)).foldl (fun st b => manchester_out d b st) s := by
  induction n with
  | zero => intro r s; simp [main_data_loop]
  | succ n ih =>
    intro r s
    rw [main_data_loop, ih, range_map_bit_of, bit_of_zero]
    simp

theorem main_transmit_eq_foldl (d f : Nat) (s : Avr) :
    main_transmit d f s = (frame_bits f).foldl (fun st b => manchester_out d b st) s := by
  unfold main_transmit frame_bits
  rw [main_data_loop_eq_foldl]
  simp

/-- A reading of the trace that grows by `sym b` with each call `manchester_out b`
grows by the readings of all the bits over a run of calls. -/
theorem foldl_manchester_out_reading {α : Type} (d : Nat) (g : List Event → List α)
    (sym : Nat → List α)
    (h : ∀ b s, g (manchester_out d b s).trace = g s.trace ++ sym b) (bits : List Nat) :
    ∀ s : Avr, g (bits.foldl (fun st b => manchester_out d b st) s).trace
      = g s.trace ++ bits.flatMap sym := by
  induction bits with
  | nil => intro s; simp
  | cons b t ih =>
    intro s
    rw [List.foldl_cons, ih, h]
    simp

theorem foldl_manchester_out_calls (d : Nat) (bits : List Nat) :
    ∀ s : Avr, (bits.foldl (fun st b => manchester_out d b st) s).calls = s.calls ++ bits := by
  induction bits with
  | nil => intro s; simp
  | cons b t ih =>
    intro s
    rw [List.foldl_cons, ih, manchester_out_calls]
    simp

theorem foldl_manchester_out_trace_grows (d : Nat) (bits : List Nat) :
    ∀ s : Avr, s.trace <+: (bits.foldl (fun st b => manchester_out d b st) s).trace := by
  induction bits with
  | nil => intro s; simp
  | cons b t ih =>
    intro s
    rw [List.foldl_cons]
    exact (manchester_out_trace_grows d b s).trans (ih _)

theorem main_transmit_signal (d f : Nat) (s : Avr) (hd : d < 8) :
    signal d (main_transmit d f s).trace
      = signal d s.trace ++ (frame_bits f).flatMap symbol := by
  rw [main_transmit_eq_foldl]
  exact foldl_manchester_out_reading d (signal d) symbol
    (fun b st => manchester_out_signal d b st hd) _ s

theorem main_transmit_levels (d f : Nat) (s : Avr) (hd : d < 8) :
    levels d (main_transmit d f s).trace
      = levels d s.trace ++ (frame_bits f).flatMap half_symbols := by
  rw [main_transmit_eq_foldl]
  exact foldl_manchester_out_reading d (levels d) half_symbols
    (fun b st => manchester_out_levels d b st hd) _ s

theorem main_transmit_delays (d f : Nat) (s : Avr) :
    delays (main_transmit d f s).trace
      = delays s.trace
        ++ (frame_bits f).flatMap (fun _ => [MANCHESTER_DELAY, MANCHESTER_DELAY]) := by
  rw [main_transmit_eq_foldl]
  exact foldl_manchester_out_reading d delays _
    (fun b st => manchester_out_delays d b st) _ s

theorem main_transmit_calls (d f : Nat) (s : Avr) :
    (main_transmit d f s).calls = s.calls ++ frame_bits f := by
  rw [main_transmit_eq_foldl]
  exact foldl_manchester_out_calls d _ s

theorem main_transmit_trace_grows (d f : Nat) (s : Avr) :
    s.trace <+: (main_transmit d f s).trace := by
  rw [main_transmit_eq_foldl]
  exact foldl_manchester_out_trace_grows d _ s

theorem frame_bits_length (f : Nat) : (frame_bits f).length = 17 := by
  simp [frame_bits]

theorem emitted_levels_transmit (d f : Nat) (s : Avr) (hd : d < 8) :
    levels d (emitted s.trace (main_transmit d f s).trace)
      = (frame_bits f).flatMap half_symbols :=
  emitted_reading (levels d) (levels_append d) _ _ _ (main_transmit_trace_grows d f s)
    (main_transmit_levels d f s hd)

theorem bit_of_eq_div_mod (f i : Nat) : bit_of f i = f / 2 ^ i % 2 := by
  unfold bit_of
  rw [Nat.and_one_is_mod, Nat.shiftRight_eq_div_pow]

theorem sum_durations (t : List Event) : (t.map duration_us).sum = (delays t).sum := by
  induction t with
  | nil => rfl
  | cons e t ih => cases e <;> simp [delays, duration_us, ih]

theorem out_low_delay_calls (d n : Nat) (s : Avr) :
    (_delay_ms n (out_low d s)).calls = s.calls := by
  simp [_delay_ms, out_low, write_portb]

theorem no_three_equal_cons_pair (x : Bool) (rest : List Bool)
    (h : ∀ a, no_three_equal (a :: rest) = true) :
    no_three_equal (x :: (!x) :: rest) = true ∧
      ∀ a, no_three_equal (a :: x :: (!x) :: rest) = true := by
  have h1 : no_three_equal (x :: (!x) :: rest) = true := by
    cases rest with
    | nil => simp [no_three_equal]
    | cons c t =>
      have := h (!x)
      cases x <;> simp_all [no_three_equal]
  refine ⟨h1, fun a => ?_⟩
  have hx : (x == !x) = false := by cases x <;> rfl
  simp [no_three_equal, h1, hx]

theorem half_symbols_eq (b : Nat) : half_symbols b = [b != 0, !(b != 0)] := by
  unfold half_symbols
  cases h : b == 0 <;> simp [bne, h]

theorem no_three_equal_flatMap (bits : List Nat) :
    no_three_equal (bits.flatMap half_symbols) = true ∧
      ∀ a, no_three_equal (a :: bits.flatMap half_symbols) = true := by
  induction bits with
  | nil =>
    refine ⟨rfl, fun a => ?_⟩
    simp [no_three_equal]
  | cons b t ih =>
    rw [List.flatMap_cons, half_symbols_eq]
    exact no_three_equal_cons_pair _ _ ih.2

theorem no_three_equal_index : ∀ (l : List Bool), no_three_equal l = true →
    ∀ (i : Nat) (a : Bool), l[i]? = some a → l[i + 1]? = some a → l[i + 2]? ≠ some a
  | [], _, i, a, h0, _ => by simp at h0
  | [_], _, i, a, _, h1 => by simp at h1
  | [_, _], _, i, a, _, _ => by simp
  | x :: y :: z :: t, h, 0, a, h0, h1 => by
    simp only [List.getElem?_cons_zero, List.getElem?_cons_succ, Option.some.injEq,
      Nat.zero_add] at h0 h1 ⊢
    subst h0 h1
    intro hz
    have hz' : z = y := by simpa using hz
    subst hz'
    simp [no_three_equal] at h
  | x :: y :: z :: t, h, i + 1, a, h0, h1 => by
    have h' : no_three_equal (y :: z :: t) = true := by
      simp [no_three_equal] at h
      exact h.2
    have := no_three_equal_index (y :: z :: t) h' i a (by simpa using h0) (by simpa using h1)
    simpa using this

theorem flatMap_half_symbols_length (bits : List Nat) :
    (bits.flatMap half_symbols).length = 2 * bits.length := by
  induction bits with
  | nil => rfl
  | cons b t ih => simp [List.flatMap_cons, half_symbols, ih]; omega

/-! ## The claims -/

/-- Claim C1: in one cycle of the loop of `main` the bits passed to
`manchester_out` are 17 in number, the preamble bit 1 and then bits 0 to 15 of the
frame, least significant first; the transmission is these calls one after the
other with no line event between two symbols. The frame `0b1011010000000101`
gives the preamble and then 1,0,1,0,0,0,0,0,0,0,1,0,1,1,0,1. -/
theorem main_transmit_sends_frame_bits (ddb1 f adcl adch : Nat) (s : Avr) (hd : ddb1 < 8) :
    main_transmit ddb1 f s = (frame_bits f).foldl (fun st b => manchester_out ddb1 b st) s
    ∧ (main_transmit ddb1 f s).calls
        = s.calls ++ 1 :: (List.range 16).map (fun i => f / 2 ^ i % 2)
    ∧ (frame_bits f).length = 17
    ∧ frame_bits f = 1 :: (List.range 16).map (fun i => f / 2 ^ i % 2)
    ∧ signal ddb1 (emitted s.trace (main_transmit ddb1 f s).trace)
        = (frame_bits f).flatMap symbol
    ∧ (main_cycle ddb1 adcl adch s).calls = s.calls ++ frame_bits (main_reading adcl adch)
    ∧ frame_bits 0b1011010000000101 = [1, 1, 0, 1, 0, 0, 0, 0, 0, 0, 0, 1, 0, 1, 1, 0, 1] := by
  have hb : frame_bits f = 1 :: (List.range 16).map (fun i => f / 2 ^ i % 2) := by
    unfold frame_bits
    congr 1
    exact List.map_congr_left (fun i _ => bit_of_eq_div_mod f i)
  refine ⟨main_transmit_eq_foldl ddb1 f s, ?_, frame_bits_length f, hb, ?_, ?_, by decide⟩
  · rw [main_transmit_calls, hb]
  · exact emitted_reading (signal ddb1) (signal_append ddb1) _ _ _
      (main_transmit_trace_grows ddb1 f s) (main_transmit_signal ddb1 f s hd)
  · unfold main_cycle
    simp only [out_low_delay_calls, main_transmit_calls]

/-- Claim C1 at `DDB1 = 1`, the frame `0b1011010000000101` and a cleared port. -/
theorem main_transmit_sends_frame_bits_witness :
    (1 : Nat) < 8 ∧
    (main_transmit 1 0b1011010000000101 ⟨0, 0, [], []⟩).calls
      = [] ++ 1 :: (List.range 16).map (fun i => 0b1011010000000101 / 2 ^ i % 2) :=
  ⟨by decide,
   (main_transmit_sends_frame_bits 1 0b1011010000000101 0 0 ⟨0, 0, [], []⟩ (by decide)).2.1⟩

/-- Claim C2: `manchester_out(bit)` is one symbol of two half-symbols, each held
for the half-bit delay of 500 microseconds: high, wait, low, wait for a nonzero
bit and low, wait, high, wait for bit 0; the two half-symbol levels differ. -/
theorem manchester_out_two_half_symbols (ddb1 bit : Nat) (s : Avr) (hd : ddb1 < 8) :
    signal ddb1 (emitted s.trace (manchester_out ddb1 bit s).trace)
      = (if bit ≠ 0 then [Sum.inl true, Sum.inr 500, Sum.inl false, Sum.inr 500]
         else [Sum.inl false, Sum.inr 500, Sum.inl true, Sum.inr 500])
    ∧ levels ddb1 (emitted s.trace (manchester_out ddb1 bit s).trace)
      = [decide (bit ≠ 0), !decide (bit ≠ 0)]
    ∧ MANCHESTER_DELAY = 500 := by
  refine ⟨?_, ?_, rfl⟩
  · rw [emitted_reading (signal ddb1) (signal_append ddb1) _ _ _
      (manchester_out_trace_grows ddb1 bit s) (manchester_out_signal ddb1 bit s hd)]
    by_cases hb : bit = 0 <;> simp [symbol, hb, MANCHESTER_DELAY]
  · rw [emitted_reading (levels ddb1) (levels_append ddb1) _ _ _
      (manchester_out_trace_grows ddb1 bit s) (manchester_out_levels ddb1 bit s hd)]
    by_cases hb : bit = 0 <;> simp [half_symbols, hb]

/-- Claim C2 at `DDB1 = 1`, bit 1 and a port with every bit set. -/
theorem manchester_out_two_half_symbols_witness :
    (1 : Nat) < 8 ∧
    levels 1 (emitted [] (manchester_out 1 1 ⟨0, 255, [], []⟩).trace) = [true, false] :=
  ⟨by decide, (manchester_out_two_half_symbols 1 1 ⟨0, 255, [], []⟩ (by decide)).2.1⟩

/-- Claim C7: one transmission is 17 symbols, each with exactly two half-bit
delays of 500 microseconds (a bit period of 1000), so its delays are 34 waits of
500 microseconds, 17 ms in all. -/
theorem transmission_lasts_17_ms (ddb1 f bit : Nat) (s : Avr) :
    delays (emitted s.trace (main_transmit ddb1 f s).trace) = List.replicate 34 500
    ∧ ((emitted s.trace (main_transmit ddb1 f s).trace).map duration_us).sum = 17000
    ∧ (main_transmit ddb1 f s).calls.length = s.calls.length + 17
    ∧ delays (emitted s.trace (manchester_out ddb1 bit s).trace) = [500, 500]
    ∧ MANCHESTER_DELAY = 500 ∧ 2 * MANCHESTER_DELAY = 1000 ∧ 34 * MANCHESTER_DELAY = 17000 := by
  have h1 : delays (emitted s.trace (main_transmit ddb1 f s).trace)
      = List.replicate 34 500 := by
    rw [emitted_reading delays delays_append _ _ _
      (main_transmit_trace_grows ddb1 f s) (main_transmit_delays ddb1 f s)]
    simp [frame_bits, MANCHESTER_DELAY]
    rfl
  refine ⟨h1, ?_, ?_, ?_, rfl, rfl, rfl⟩
  · rw [sum_durations, h1]; rfl
  · rw [main_transmit_calls, List.length_append, frame_bits_length]
  · exact emitted_reading delays delays_append _ _ _
      (manchester_out_trace_grows ddb1 bit s) (manchester_out_delays ddb1 bit s)

/-- Claim C10: among the 34 half-symbol levels of one frame no three consecutive
levels are equal, so within a frame the line holds a level for at most two
half-bit periods, one bit period of 1 ms. -/
theorem frame_never_holds_three_half_bits (ddb1 f : Nat) (s : Avr) (hd : ddb1 < 8) :
    (levels ddb1 (emitted s.trace (main_transmit ddb1 f s).trace)).length = 34
    ∧ no_three_equal (levels ddb1 (emitted s.trace (main_transmit ddb1 f s).trace)) = true
    ∧ (∀ (i : Nat) (a : Bool),
        (levels ddb1 (emitted s.trace (main_transmit ddb1 f s).trace))[i]? = some a →
        (levels ddb1 (emitted s.trace (main_transmit ddb1 f s).trace))[i + 1]? = some a →
        (levels ddb1 (emitted s.trace (main_transmit ddb1 f s).trace))[i + 2]? ≠ some a)
    ∧ 2 * MANCHESTER_DELAY = 1000 := by
  rw [emitted_levels_transmit ddb1 f s hd]
  have h := (no_three_equal_flatMap (frame_bits f)).1
  refine ⟨?_, h, no_three_equal_index _ h, rfl⟩
  rw [flatMap_half_symbols_length, frame_bits_length]

/-- Claim C10 at `DDB1 = 1`, the frame `0xB400` and a cleared port. -/
theorem frame_never_holds_three_half_bits_witness :
    (1 : Nat) < 8 ∧
    no_three_equal (levels 1 (emitted [] (main_transmit 1 0xB400 ⟨0, 0, [], []⟩).trace)) = true :=
  ⟨by decide, (frame_never_holds_three_half_bits 1 0xB400 ⟨0, 0, [], []⟩ (by decide)).2.1⟩

/-! ### Frame construction (claims C4, C5) -/

set_option maxRecDepth 100000 in
theorem main_reading_of_sample :
    ∀ s, s < 1024 →
      main_reading (s % 256) (s / 256) = s ||| 0xB400
      ∧ s &&& 0xB400 = 0
      ∧ main_reading (s % 256) (s / 256) &&& 0xB400 = 0xB400
      ∧ main_reading (s % 256) (s / 256) &&& 0x03FF = s
      ∧ main_reading (s % 256) (s / 256) % 65536 &&& (0xFFFF ^^^ 0xB400) = s := by
  decide

/-- Claim C4: for every sample `s` of at most 10 bits, read from the ADC as
`ADCL = s % 256` and `ADCH = s / 256`, the frame built by `main` is `s | 0xB400`;
sample and signature share no bit, the signature bits of the frame are all set,
and masking with `0x03FF` gives the sample back. -/
theorem frame_keeps_sample_and_signature (s : Nat) (hs : s ≤ 1023) :
    main_reading (s % 256) (s / 256) = s ||| 0xB400
    ∧ s &&& 0xB400 = 0
    ∧ main_reading (s % 256) (s / 256) &&& 0xB400 = 0xB400
    ∧ main_reading (s % 256) (s / 256) &&& 0x03FF = s := by
  have h := main_reading_of_sample s (by omega)
  exact ⟨h.1, h.2.1, h.2.2.1, h.2.2.2.1⟩

/-- Claim C4 at the sample 1023, the largest. -/
theorem frame_keeps_sample_and_signature_witness :
    (1023 : Nat) ≤ 1023 ∧ main_reading (1023 % 256) (1023 / 256) &&& 0x03FF = 1023 :=
  ⟨by decide, (frame_keeps_sample_and_signature 1023 (by decide)).2.2.2⟩

/-- Claim C5, as stated, fails: for the sample 300 the frame built by `main`,
`300 | 0xB400`, is not `0xB4AC`. -/
theorem frame_of_300_is_not_B4AC :
    ¬ (main_reading (300 % 256) (300 / 256) = 0xB4AC) ∧ ¬ (300 ||| 0xB400 = 0xB4AC) := by
  decide

/-- Claim C5, amended: for the sample 300 the frame built by `main`,
`300 | 0xB400`, is `0xB52C`. -/
theorem frame_of_300_is_B52C :
    main_reading (300 % 256) (300 / 256) = 0xB52C ∧ 300 ||| 0xB400 = 0xB52C := by
  decide

/-! ### Round trip (claim C3) -/

theorem spec_decode_half_symbols (b : Nat) (hb : b = 0 ∨ b = 1) :
    spec_decode_symbol (b != 0) (b == 0) = some b := by
  rcases hb with rfl | rfl <;> rfl

theorem spec_decode_levels_flatMap : ∀ (bits : List Nat), (∀ b ∈ bits, b = 0 ∨ b = 1) →
    spec_decode_levels (bits.flatMap half_symbols) = some bits := by
  intro bits
  induction bits with
  | nil => intro _; rfl
  | cons b t ih =>
    intro h
    have hb := h b (List.mem_cons_self b t)
    have ht := ih (fun x hx => h x (List.mem_cons_of_mem b hx))
    have hc : (b :: t).flatMap half_symbols
        = (b != 0) :: (b == 0) :: t.flatMap half_symbols := by
      simp [List.flatMap_cons, half_symbols]
    rw [hc, spec_decode_levels, spec_decode_half_symbols b hb, ht]

theorem frame_bits_binary (f : Nat) : ∀ b ∈ frame_bits f, b = 0 ∨ b = 1 := by
  intro b hb
  unfold frame_bits at hb
  rcases List.mem_cons.mp hb with rfl | hb
  · exact Or.inr rfl
  · obtain ⟨i, _, rfl⟩ := List.mem_map.mp hb
    exact bit_of_le_one f i

theorem spec_assemble_bits (n : Nat) : ∀ f : Nat,
    spec_assemble ((List.range n).map (bit_of f)) = f % 2 ^ n := by
  induction n with
  | zero => intro f; simp [spec_assemble, Nat.mod_one]
  | succ n ih =>
    intro f
    rw [range_map_bit_of, spec_assemble, ih, bit_of_eq_div_mod, Nat.shiftRight_eq_div_pow]
    have h2 : (2 : Nat) ^ (n + 1) = 2 * 2 ^ n := by rw [Nat.pow_succ, Nat.mul_comm]
    rw [h2, Nat.mod_mul]
    simp

/-- Claim C3: for every sample `s` from 0 to 1023 the 34 half-symbol levels that
one cycle drives all decode under the inverse symbol mapping, the first symbol is
the preamble 1, and the 16 data bits assembled least significant first, with the
signature bits `0xB400` cleared, are `s`. -/
theorem round_trip (ddb1 s : Nat) (st : Avr) (hd : ddb1 < 8) (hs : s ≤ 1023) :
    (levels ddb1
        (emitted st.trace (main_transmit ddb1 (main_reading (s % 256) (s / 256)) st).trace)).length
      = 34
    ∧ spec_decode_levels (levels ddb1
        (emitted st.trace (main_transmit ddb1 (main_reading (s % 256) (s / 256)) st).trace))
      = some (1 :: (List.range 16).map (fun i => (s ||| 0xB400) / 2 ^ i % 2))
    ∧ spec_decode_sample (levels ddb1
        (emitted st.trace (main_transmit ddb1 (main_reading (s % 256) (s / 256)) st).trace))
      = some s := by
  have hr := main_reading_of_sample s (by omega)
  rw [emitted_levels_transmit ddb1 _ st hd]
  have hdec := spec_decode_levels_flatMap _ (frame_bits_binary (main_reading (s % 256) (s / 256)))
  refine ⟨?_, ?_, ?_⟩
  · rw [flatMap_half_symbols_length, frame_bits_length]
  · rw [hdec, ← hr.1]
    unfold frame_bits
    congr 2
    exact List.map_congr_left (fun i _ => bit_of_eq_div_mod _ i)
  · unfold spec_decode_sample
    rw [hdec]
    have h16 : (2 : Nat) ^ 16 = 65536 := by norm_num
    simp only [frame_bits, List.length_map, List.length_range, if_true, spec_assemble_bits, h16,
      hr.2.2.2.2]

/-- Claim C3 at `DDB1 = 1`, the sample 300 and a cleared port. -/
theorem round_trip_witness :
    (1 : Nat) < 8 ∧ (300 : Nat) ≤ 1023 ∧
    spec_decode_sample (levels 1
        (emitted [] (main_transmit 1 (main_reading (300 % 256) (300 / 256)) ⟨0, 0, [], []⟩).trace))
      = some 300 :=
  ⟨by decide, by decide, (round_trip 1 300 ⟨0, 0, [], []⟩ (by decide) (by decide)).2.2⟩

/-! ### The idle gap (claim C6) -/

theorem main_cycle_signal (d adcl adch : Nat) (s : Avr) (hd : d < 8) :
    signal d (main_cycle d adcl adch s).trace
      = signal d s.trace
        ++ ((frame_bits (main_reading adcl adch)).flatMap symbol
            ++ [Sum.inl false, Sum.inr 100000]) := by
  unfold main_cycle
  simp only [_delay_ms, out_low, write_portb, signal_append, signal, pin_level_clear,
    duration_us, main_transmit_signal d _ s hd, List.append_assoc, List.cons_append,
    List.nil_append]

theorem main_cycle_trace_grows (d adcl adch : Nat) (s : Avr) :
    s.trace <+: (main_cycle d adcl adch s).trace := by
  unfold main_cycle
  simp only [_delay_ms, out_low, write_portb, List.append_assoc]
  exact (main_transmit_trace_grows d _ s).trans (List.prefix_append _ _)

theorem main_cycle_pin_low (d adcl adch : Nat) (s : Avr) :
    pin_level d (main_cycle d adcl adch s).portb = false := by
  unfold main_cycle
  simp only [_delay_ms, out_low, write_portb, pin_level_clear]

theorem main_init_pin_low (d : Nat) (s : Avr) :
    pin_level d (main_init d s).portb = false := by
  unfold main_init
  simp only [out_low, write_portb, pin_level_clear]

theorem foldl_main_cycle_pin_low (d : Nat) (adc : List (Nat × Nat)) : ∀ s : Avr,
    pin_level d s.portb = false →
    pin_level d (adc.foldl (fun s r => main_cycle d r.1 r.2 s) s).portb = false := by
  induction adc with
  | nil => intro s h; exact h
  | cons r t ih =>
    intro s _
    rw [List.foldl_cons]
    exact ih _ (main_cycle_pin_low d r.1 r.2 s)

theorem foldl_main_cycle_signal (d : Nat) (hd : d < 8) (adc : List (Nat × Nat)) : ∀ s : Avr,
    signal d (adc.foldl (fun s r => main_cycle d r.1 r.2 s) s).trace
      = signal d s.trace ++ adc.flatMap (fun r =>
          (frame_bits (main_reading r.1 r.2)).flatMap symbol
            ++ [Sum.inl false, Sum.inr 100000]) := by
  induction adc with
  | nil => intro s; simp
  | cons r t ih =>
    intro s
    rw [List.foldl_cons, ih, main_cycle_signal d r.1 r.2 s hd, List.flatMap_cons,
      List.append_assoc]

theorem foldl_main_cycle_trace_grows (d : Nat) (adc : List (Nat × Nat)) : ∀ s : Avr,
    s.trace <+: (adc.foldl (fun s r => main_cycle d r.1 r.2 s) s).trace := by
  induction adc with
  | nil => intro s; simp
  | cons r t ih =>
    intro s
    rw [List.foldl_cons]
    exact (main_cycle_trace_grows d r.1 r.2 s).trans (ih _)

theorem main_init_signal (d : Nat) (s : Avr) :
    signal d (main_init d s).trace = signal d s.trace ++ [Sum.inl false] := by
  unfold main_init
  simp only [out_low, write_portb, signal_append, signal, pin_level_clear]

theorem main_init_trace_grows (d : Nat) (s : Avr) : s.trace <+: (main_init d s).trace := by
  unfold main_init
  simp only [out_low, write_portb]
  exact List.prefix_append _ _

/-- Claim C6: in every cycle of the loop of `main` the line is driven low after
the 16th data symbol and the only event until the next preamble drives it high
is the busy-wait of 100 ms, longer than one bit period of 1 ms; the line is low
whenever a preamble begins, the first included. -/
theorem idle_gap_between_frames (ddb1 adcl adch : Nat) (adc : List (Nat × Nat)) (s : Avr)
    (hd : ddb1 < 8) :
    signal ddb1 (emitted s.trace (main_cycle ddb1 adcl adch s).trace)
      = [Sum.inl true, Sum.inr 500, Sum.inl false, Sum.inr 500]
        ++ ((List.range 16).map (bit_of (main_reading adcl adch))).flatMap symbol
        ++ [Sum.inl false, Sum.inr 100000]
    ∧ signal ddb1 (emitted s.trace (main ddb1 adc s).trace)
      = Sum.inl false :: adc.flatMap (fun r =>
          [Sum.inl true, Sum.inr 500, Sum.inl false, Sum.inr 500]
          ++ ((List.range 16).map (bit_of (main_reading r.1 r.2))).flatMap symbol
          ++ [Sum.inl false, Sum.inr 100000])
    ∧ pin_level ddb1 (main ddb1 adc s).portb = false
    ∧ pin_level ddb1 (main_cycle ddb1 adcl adch s).portb = false
    ∧ 2 * MANCHESTER_DELAY = 1000
    ∧ 2 * MANCHESTER_DELAY < duration_us (Event.delay_ms 100)
    ∧ duration_us (Event.delay_ms 100) = 100000 := by
  refine ⟨?_, ?_, ?_, main_cycle_pin_low ddb1 adcl adch s, rfl, by decide, rfl⟩
  · rw [emitted_reading (signal ddb1) (signal_append ddb1) _ _ _
      (main_cycle_trace_grows ddb1 adcl adch s) (main_cycle_signal ddb1 adcl adch s hd)]
    rfl
  · unfold main
    have h := foldl_main_cycle_signal ddb1 hd adc (main_init ddb1 s)
    rw [main_init_signal, List.append_assoc] at h
    rw [emitted_reading (signal ddb1) (signal_append ddb1) _ _ _
      ((main_init_trace_grows ddb1 s).trans (foldl_main_cycle_trace_grows ddb1 adc _)) h]
    rfl
  · unfold main
    exact foldl_main_cycle_pin_low ddb1 adc _ (main_init_pin_low ddb1 s)

/-- Claim C6 at `DDB1 = 1`, two cycles and a port with every bit set. -/
theorem idle_gap_between_frames_witness :
    (1 : Nat) < 8 ∧ pin_level 1 (main 1 [(44, 1), (0, 0)] ⟨0, 255, [], []⟩).portb = false :=
  ⟨by decide,
   (idle_gap_between_frames 1 0 0 [(44, 1), (0, 0)] ⟨0, 255, [], []⟩ (by decide)).2.2.1⟩

/-! ### The host side (claims C8, C9) -/

theorem GET_GPIO_pin (gpio : Window) :
    ( GET_GPIO pin gpio ≠ 0) ↔ (gpio 13).testBit 4 = true := by
  unfold GET_GPIO pin
  rw [Nat.one_shiftLeft, Nat.and_two_pow]
  cases h : (gpio 13).testBit 4 <;> simp

/-- Claim C8: `gpio_read` returns 1 when bit 4 of the level register, word 13
of the window, is set and 0 otherwise; the result is 0 or 1, is the same for two
windows that agree on that bit, and the window is left as it was. -/
theorem gpio_read_is_pin_level (gpio other : Window) :
    (gpio_read gpio).1 = (if (gpio 13).testBit 4 = true then 1 else 0)
    ∧ (gpio_read gpio).1 = gpio 13 / 16 % 2
    ∧ ((gpio_read gpio).1 = 0 ∨ (gpio_read gpio).1 = 1)
    ∧ ((other 13).testBit 4 = (gpio 13).testBit 4 → (gpio_read other).1 = (gpio_read gpio).1)
    ∧ (gpio_read gpio).2 = gpio := by
  have h1 : ∀ w : Window, (gpio_read w).1 = (if (w 13).testBit 4 = true then 1 else 0) := by
    intro w
    unfold gpio_read
    simp only [GET_GPIO_pin]
  refine ⟨h1 gpio, ?_, ?_, ?_, rfl⟩
  · rw [h1, Nat.testBit_to_div_mod]
    have e : (2 : Nat) ^ 4 = 16 := by norm_num
    rw [e]
    simp only [decide_eq_true_eq]
    split <;> omega
  · rw [h1]
    by_cases h : (gpio 13).testBit 4 = true <;> simp [h]
  · intro h
    rw [h1, h1, h]

theorem fsel_mask : (0xFFFFFFFF : Nat) ^^^ (7 <<< ((4 % 10) * 3))
    = (2 ^ 32 - 1) ^^^ ((2 ^ 3 - 1) <<< 12) := by
  decide

theorem fsel_word (w : Nat) (hw : w < 2 ^ 32) (i : Nat) :
    (((w &&& ((0xFFFFFFFF : Nat) ^^^ (7 <<< ((4 % 10) * 3)))) % 2 ^ 32
        ||| (1 <<< ((4 % 10) * 3))) % 2 ^ 32).testBit i
      = if i = 12 then true else if i = 13 ∨ i = 14 then false else w.testBit i := by
  have h1 : (1 : Nat) <<< ((4 % 10) * 3) = 2 ^ 12 := by decide
  rw [fsel_mask, h1]
  simp only [Nat.testBit_mod_two_pow, Nat.testBit_or, Nat.testBit_and, Nat.testBit_xor,
    Nat.testBit_two_pow_sub_one, Nat.testBit_shiftLeft, Nat.testBit_two_pow]
  by_cases h32 : i < 32
  · by_cases h12 : i = 12
    · subst h12; simp
    · by_cases h13 : i = 13
      · subst h13; simp
      · by_cases h14 : i = 14
        · subst h14; simp
        · have hne : ¬ (12 = i) := fun h => h12 h.symm
          by_cases hge : 12 ≤ i
          · have : ¬ (i - 12 < 3) := by omega
            simp [h32, h12, h13, h14, hne, hge, this]
          · have hlt : ¬ (i ≥ 12) := hge
            simp [h32, h12, h13, h14, hne, hlt]
  · have hf : w.testBit i = false :=
      Nat.testBit_lt_two_pow (Nat.lt_of_lt_of_le hw (Nat.pow_le_pow_right (by norm_num)
        (by omega)))
    have h12 : ¬ (i = 12) := by omega
    have h13 : ¬ (i = 13) := by omega
    have h14 : ¬ (i = 14) := by omega
    simp [h32, hf, h12, h13, h14]

/-- Claim C9: whatever the register window held, a successful `gpio_init` leaves
bits 12 to 14 of word 0, the function select of pin 4, equal to 001, every other
bit of word 0 as it was, and every other word as it was. -/
theorem gpio_init_selects_output (fd : Int) (gpio : Window) (hfd : 0 ≤ fd)
    (hw : gpio 0 < 2 ^ 32) :
    ∃ after : Window,
      gpio_init fd (some gpio) = Except.ok after
      ∧ (after 0).testBit 12 = true ∧ (after 0).testBit 13 = false
      ∧ (after 0).testBit 14 = false
      ∧ after 0 / 2 ^ 12 % 8 = 1
      ∧ (∀ i, i ≠ 12 → i ≠ 13 → i ≠ 14 → (after 0).testBit i = (gpio 0).testBit i)
      ∧ (∀ j, j ≠ 0 → after j = gpio j) := by
  have hfd' : ¬ fd < 0 := by omega
  refine ⟨ OUT_GPIO pin ( INP_GPIO pin gpio), ?_, ?_⟩
  · simp [gpio_init, hfd']
  have h0 : ( OUT_GPIO pin ( INP_GPIO pin gpio)) 0
      = ((gpio 0 &&& ((0xFFFFFFFF : Nat) ^^^ (7 <<< ((4 % 10) * 3)))) % 2 ^ 32
        ||| (1 <<< ((4 % 10) * 3))) % 2 ^ 32 := by
    simp [ OUT_GPIO, INP_GPIO, store, pin]
  have hb := fsel_word (gpio 0) hw
  rw [← h0] at hb
  have b12 := hb 12
  have b13 := hb 13
  have b14 := hb 14
  simp only [if_true] at b12
  norm_num at b13 b14
  refine ⟨b12, b13, b14, ?_, ?_, ?_⟩
  · rw [Nat.testBit_to_div_mod] at b12 b13 b14
    simp only [decide_eq_true_eq, decide_eq_false_iff_not] at b12 b13 b14
    have e13 : (2 : Nat) ^ 13 = 2 ^ 12 * 2 := by norm_num
    have e14 : (2 : Nat) ^ 14 = 2 ^ 12 * 2 * 2 := by norm_num
    rw [e13, ← Nat.div_div_eq_div_mul] at b13
    rw [e14, ← Nat.div_div_eq_div_mul, ← Nat.div_div_eq_div_mul] at b14
    omega
  · intro i h12 h13 h14
    rw [hb i]
    simp [h12, h13, h14]
  · intro j hj
    simp [ OUT_GPIO, INP_GPIO, store, pin, hj]

/-- Claim C9 on a window whose every word is `0xFFFFFFFF`. -/
theorem gpio_init_selects_output_witness :
    (0 : Int) ≤ 3 ∧ (fun _ => 0xFFFFFFFF : Window) 0 < 2 ^ 32 ∧
    ∃ after : Window,
      gpio_init 3 (some (fun _ => 0xFFFFFFFF)) = Except.ok after
      ∧ (after 0).testBit 12 = true ∧ (after 0).testBit 13 = false
      ∧ (after 0).testBit 14 = false
      ∧ after 0 / 2 ^ 12 % 8 = 1
      ∧ (∀ i, i ≠ 12 → i ≠ 13 → i ≠ 14 →
          (after 0).testBit i = ((fun _ => 0xFFFFFFFF : Window) 0).testBit i)
      ∧ (∀ j, j ≠ 0 → after j = (fun _ => 0xFFFFFFFF : Window) j) :=
  ⟨by decide, by decide,
   gpio_init_selects_output 3 (fun _ => 0xFFFFFFFF) (by decide) (by decide)⟩

end Monitor
